import Mathlib

/-!
# Verification of the memory retrieval engine

A shallow embedding of the core of a local-first memory retrieval engine:
a line-based chunker, an ingestion pipeline over a chunk/embedding store,
a hybrid (vector + keyword) search pipeline, a cosine-similarity scoring
function, a line-window file reader, and a debouncing file-watch state
machine.  Each definition is translated from the corresponding Python
function; external collaborators (the SQLite connection, the embedding
HTTP call, the filesystem) are passed in as explicit parameters.
-/

namespace Clawd

/-- Helper for `pySplitLines`: scan the character list, accumulating the
current line (in reverse) and cutting at every newline. -/
def splitLinesAux : List Char → List Char → List String
  | [], cur => [String.mk cur.reverse]
  | c :: cs, cur =>
    if c = '\n' then String.mk cur.reverse :: splitLinesAux cs []
    else splitLinesAux cs (c :: cur)

/-- Python `text.split('\n')`.  Note Python's convention: splitting the
empty string yields `[""]` (one empty line), and a trailing newline
yields a final empty element. -/
def pySplitLines (s : String) : List String := splitLinesAux s.data []

/-- Python `'\n'.join(lines)`. -/
def joinLines (ls : List String) : String := String.intercalate "\n" ls

/-- `CHUNK_SIZE = 400` (target tokens per chunk) from `index.py`. -/
def CHUNK_SIZE : Nat := 400

/-- `CHUNK_OVERLAP = 80` (overlap tokens between chunks) from `index.py`. -/
def CHUNK_OVERLAP : Nat := 80

/-- `EMBEDDING_MODEL` from `index.py`. -/
def EMBEDDING_MODEL : String := "nomic-embed-text"

/-- Helper for `estimateTokens`: count maximal non-whitespace runs; the
flag records whether the scan is currently inside a word. -/
def countWordsAux : List Char → Bool → Nat
  | [], _ => 0
  | c :: cs, inWord =>
    if c.isWhitespace then countWordsAux cs false
    else (if inWord then 0 else 1) + countWordsAux cs true

/-- Python `len(s.split())`: the number of maximal whitespace-separated
words of `s`. -/
def wordCount (s : String) : Nat := countWordsAux s.data false

/-- `estimate_tokens(s) = int(len(s.split()) * 1.3)` from `chunk_text`:
the whitespace-separated word count times 1.3, truncated to an integer;
for word counts in any realistic range the float product truncates to
`words * 13 / 10` in integer arithmetic, which is how we embed it. -/
def estimateTokens (s : String) : Nat := wordCount s * 13 / 10

/-- A chunk descriptor as yielded by `chunk_text`: the dict with keys
`content`, `line_start`, `line_end`, `file_path`. -/
structure Chunk where
  filePath : String
  content : String
  lineStart : Nat
  lineEnd : Nat
deriving Repr, DecidableEq

/-- The overlap scan inside `chunk_text`: walk the previous chunk's lines
in reverse (`rev` is the reversed remaining lines), collecting lines while
the running token estimate stays within `CHUNK_OVERLAP`; `acc` holds the
collected overlap lines in document order and `tok` their token total. -/
def overlapAux (rev : List String) (tok : Nat) (acc : List String) :
    List String × Nat :=
  match rev with
  | [] => (acc, tok)
  | l :: ls =>
    let lt := estimateTokens l
    if CHUNK_OVERLAP < tok + lt then (acc, tok)
    else overlapAux ls (tok + lt) (l :: acc)

/-- The overlap kept when a chunk is emitted: a suffix of the emitted
chunk's lines whose cumulative token estimate is at most `CHUNK_OVERLAP`,
together with that token total.  Mirrors the `for prev_line in
reversed(chunk_lines)` loop of `chunk_text`. -/
def overlapTail (ls : List String) : List String × Nat :=
  overlapAux ls.reverse 0 []

/-- The main loop of `chunk_text`.  `rest` is the remaining document
lines, `i` the 0-based index of the next line, `acc` the buffered chunk
lines, `start` the 0-based index of the first buffered line, and `tok`
the running token estimate of `acc`.  When adding a line would exceed
`CHUNK_SIZE` and the buffer is non-empty, the buffer is emitted as a
chunk (1-indexed lines `start+1 .. start+acc.length`) and the next buffer
is seeded with the overlap suffix plus the new line; the final buffer is
emitted if non-empty.  The invariant `start + acc.length = i` makes the
`i - overlap.length` subtraction exact. -/
def chunkLoop (fp : String) (rest : List String) (i : Nat)
    (acc : List String) (start tok : Nat) : List Chunk :=
  match rest with
  | [] =>
    if acc.isEmpty then []
    else [⟨fp, joinLines acc, start + 1, start + acc.length⟩]
  | line :: rest' =>
    let lt := estimateTokens line
    if CHUNK_SIZE < tok + lt ∧ acc ≠ [] then
      let emitted : Chunk := ⟨fp, joinLines acc, start + 1, start + acc.length⟩
      let ov := overlapTail acc
      emitted :: chunkLoop fp rest' (i + 1) (ov.1 ++ [line]) (i - ov.1.length) (ov.2 + lt)
    else
      chunkLoop fp rest' (i + 1) (acc ++ [line]) start (tok + lt)

/-- `chunk_text(text, file_path)` from `index.py`: split the text into
lines and run the accumulation loop from an empty buffer. -/
def chunkText (text : String) (fp : String) : List Chunk :=
  chunkLoop fp (pySplitLines text) 0 [] 0 0

/-! ## The chunk/embedding store and the ingestion pipeline (`index.py`) -/

/-- A row of the `chunks` table. -/
structure ChunkRow where
  id : Nat
  filePath : String
  lineStart : Nat
  lineEnd : Nat
  content : String
  contentHash : String
deriving Repr, DecidableEq

/-- A row of the `embeddings` table: the owning chunk id, the stored
vector (the binary blob, decoded), and the model name. -/
structure EmbRow where
  chunkId : Nat
  blob : List ℚ
  model : String
deriving Repr, DecidableEq

/-- The database state: the two tables plus the row-id allocator.  SQLite
assigns a fresh `lastrowid` to each insert; we model this with `nextId`,
keeping the invariant that every stored id is below it. -/
structure Store where
  chunks : List ChunkRow
  embeddings : List EmbRow
  nextId : Nat
deriving Repr, DecidableEq

/-- The `force` branch of `index_file`: for every chunk of the file,
delete its embeddings (`DELETE FROM embeddings WHERE chunk_id = ?`), then
delete the file's chunks (`DELETE FROM chunks WHERE file_path = ?`). -/
def deleteFileRows (relPath : String) (db : Store) : Store :=
  { db with
    embeddings := db.embeddings.filter fun e =>
      ! db.chunks.any fun c => decide (c.filePath = relPath) && decide (c.id = e.chunkId)
    chunks := db.chunks.filter fun c => decide (c.filePath ≠ relPath) }

/-- The dedup probe of `index_file`: `SELECT id FROM chunks WHERE
file_path = ? AND line_start = ? AND content_hash = ?`. -/
def matchesChunk (relPath : String) (ls : Nat) (h : String) (c : ChunkRow) : Bool :=
  decide (c.filePath = relPath) && decide (c.lineStart = ls) && decide (c.contentHash = h)

/-- The per-chunk loop of `index_file`.  `hash` abstracts `content_hash`
(a deterministic digest of the content), `embed n` the outcome of the
`get_embedding` call for the `n`-th chunk of this run (`none` = the call
raised).  For each chunk: if a row with the same file path, start line
and hash exists it is skipped; otherwise the chunk row is inserted with a
fresh id, and the embedding is requested — on success an embedding row is
added and `added` incremented, on failure the just-inserted chunk row is
deleted again (`DELETE FROM chunks WHERE id = ?`).  Returns the final
store with the `(chunks_added, chunks_skipped)` counters. -/
def indexChunks (hash : String → String) (embed : Nat → Option (List ℚ))
    (relPath : String) :
    List Chunk → Nat → Store → Nat → Nat → Store × Nat × Nat
  | [], _, db, added, skipped => (db, added, skipped)
  | ch :: rest, n, db, added, skipped =>
    let h := hash ch.content
    if db.chunks.any (matchesChunk relPath ch.lineStart h) then
      indexChunks hash embed relPath rest (n + 1) db added (skipped + 1)
    else
      let cid := db.nextId
      let db1 : Store :=
        { db with
          chunks := db.chunks ++
            [{ id := cid, filePath := relPath, lineStart := ch.lineStart,
               lineEnd := ch.lineEnd, content := ch.content, contentHash := h }],
          nextId := db.nextId + 1 }
      match embed n with
      | some v =>
        let db2 : Store :=
          { db1 with embeddings := db1.embeddings ++
              [{ chunkId := cid, blob := v, model := EMBEDDING_MODEL }] }
        indexChunks hash embed relPath rest (n + 1) db2 (added + 1) skipped
      | none =>
        let db2 : Store := { db1 with chunks := db1.chunks.filter fun c => decide (c.id ≠ cid) }
        indexChunks hash embed relPath rest (n + 1) db2 added skipped

/-- `index_file(conn, file_path, force)` from `index.py`, for a file that
exists with content `text` and project-relative path `relPath`: optionally
clear the file's rows (`force`), then run the per-chunk loop over
`chunk_text(text, relPath)`.  Returns the updated store together with the
reported `(chunks_added, chunks_skipped)`. -/
def indexFile (hash : String → String) (embed : Nat → Option (List ℚ))
    (relPath : String) (text : String) (force : Bool) (db : Store) :
    Store × Nat × Nat :=
  let db0 := if force then deleteFileRows relPath db else db
  indexChunks hash embed relPath (chunkText text relPath) 0 db0 0 0

/-! ## The hybrid search pipeline (`search.py` and `mcp_server.py`) -/

/-- `VECTOR_WEIGHT = 0.7`, the weight of the vector path in score fusion. -/
def VECTOR_WEIGHT : ℚ := 7/10

/-- `TEXT_WEIGHT = 0.3`, the weight of the keyword path in score fusion. -/
def TEXT_WEIGHT : ℚ := 3/10

/-- `DEFAULT_LIMIT = 6`. -/
def DEFAULT_LIMIT : Nat := 6

/-- `MIN_SCORE = 0.25`. -/
def MIN_SCORE : ℚ := 1/4

/-- Python `max(l)` over a non-empty list, with a default for the
(unreachable) empty case. -/
def listMax (l : List ℚ) (d : ℚ) : ℚ :=
  match l with
  | [] => d
  | x :: xs => xs.foldl max x

/-- Python `min(l)` over a non-empty list, with a default for the
(unreachable) empty case. -/
def listMin (l : List ℚ) (d : ℚ) : ℚ :=
  match l with
  | [] => d
  | x :: xs => xs.foldl min x

/-- `text_search` from `search.py` (lines 126-152), with the SQLite FTS5
call abstracted: `ftsRows` is the `(rowid, bm25)` result set of the
`MATCH` query, or `none` when the query raised `sqlite3.OperationalError`
(caught and turned into an empty result).  BM25 scores are negative
(more negative = better); the code negates them and min-max rescales the
negated relevances to `[0, 1]`, with range `1` when all are equal. -/
def textSearch (ftsRows : Option (List (Nat × ℚ))) : List (Nat × ℚ) :=
  match ftsRows with
  | none => []
  | some rows =>
    if rows.isEmpty then []
    else
      let scores := rows.map fun r => (r.1, -r.2)
      let maxScore := listMax (scores.map Prod.snd) 1
      let minScore := listMin (scores.map Prod.snd) 0
      let rangeScore := if maxScore ≠ minScore then maxScore - minScore else 1
      scores.map fun p => (p.1, (p.2 - minScore) / rangeScore)

/-- Python `scores_dict.get(chunk_id, 0)`: the score assigned to a chunk
id by one search path, `0` when the path did not surface the chunk. -/
def getScore (m : List (Nat × ℚ)) (k : Nat) : ℚ :=
  match m.find? (fun p => decide (p.1 = k)) with
  | some p => p.2
  | none => 0

/-- `all_chunk_ids = set(vector_scores.keys()) | set(text_scores.keys())`:
the union of the candidate sets of the two paths (deduplicated). -/
def allChunkIds (vScores tScores : List (Nat × ℚ)) : List Nat :=
  (vScores.map Prod.fst ++ tScores.map Prod.fst).dedup

/-- The `combined_scores` map of `hybrid_search`: for each candidate
chunk id the `(final_score, v_score, t_score)` triple, with
`final = t` when `keyword_only` and `0.7*v + 0.3*t` otherwise. -/
def fuseCombined (vScores tScores : List (Nat × ℚ)) (keywordOnly : Bool) :
    List (Nat × ℚ × ℚ × ℚ) :=
  (allChunkIds vScores tScores).map fun cid =>
    let v := getScore vScores cid
    let t := getScore tScores cid
    let final := if keywordOnly then t else VECTOR_WEIGHT * v + TEXT_WEIGHT * t
    (cid, final, v, t)

/-- The `filtered` list of `hybrid_search`: candidates whose fused score
clears `min_score`. -/
def fuseFiltered (vScores tScores : List (Nat × ℚ)) (minScore : ℚ)
    (keywordOnly : Bool) : List (Nat × ℚ × ℚ × ℚ) :=
  (fuseCombined vScores tScores keywordOnly).filter fun x => decide (minScore ≤ x.2.1)

/-- Insert into a list kept in descending key order, after every element
of strictly greater key and before the first of smaller-or-equal key —
the insertion step of a stable descending sort. -/
def insertByDesc {α : Type} (key : α → ℚ) (x : α) : List α → List α
  | [] => [x]
  | y :: ys => if key x < key y then y :: insertByDesc key x ys else x :: y :: ys

/-- Python `sorted(l, key=key, reverse=True)`: the stable descending sort
by `key`.  (Stable sorts by a fixed key are extensionally unique, so this
insertion sort is the same function as Python's timsort.) -/
def sortByDesc {α : Type} (key : α → ℚ) : List α → List α
  | [] => []
  | x :: xs => insertByDesc key x (sortByDesc key xs)

/-- A row of the `chunks` table as fetched for result display. -/
structure ChunkInfo where
  filePath : String
  lineStart : Nat
  lineEnd : Nat
  content : String
deriving Repr, DecidableEq

/-- The `SearchResult` dataclass of `search.py`. -/
structure SearchResult where
  filePath : String
  lineStart : Nat
  lineEnd : Nat
  content : String
  score : ℚ
  vectorScore : ℚ
  textScore : ℚ
deriving Repr, DecidableEq

/-- The tail of `hybrid_search` (`search.py` lines 176-216): build the
combined score map over the union of candidates, filter by `min_score`,
sort by descending fused score, truncate to `limit`, then fetch each
chunk's row (`getChunk`, the `SELECT ... WHERE id = ?`), dropping ids
whose row is missing. -/
def fuseResults (getChunk : Nat → Option ChunkInfo)
    (vScores tScores : List (Nat × ℚ)) (limit : Nat) (minScore : ℚ)
    (keywordOnly : Bool) : List SearchResult :=
  let sortedResults :=
    (sortByDesc (fun x => x.2.1) (fuseFiltered vScores tScores minScore keywordOnly)).take limit
  sortedResults.filterMap fun x =>
    match getChunk x.1 with
    | some row =>
      some ⟨row.filePath, row.lineStart, row.lineEnd, row.content, x.2.1, x.2.2.1, x.2.2.2⟩
    | none => none

/-- `hybrid_search` from `search.py` (lines 155-216).  External
collaborators are explicit: `embedQuery` is the outcome of
`get_embedding(query)` (an `Except` since the call can raise),
`vectorSearchScores` is `vector_search(conn, ·)` applied to the query
embedding, `ftsRows` the FTS result consumed by `text_search`, and
`getChunk` the per-id row fetch.  Note the `get_embedding` call is *not*
guarded: when it raises and `keyword_only` is not set, the exception
propagates out of `hybrid_search`. -/
def hybridSearch (getChunk : Nat → Option ChunkInfo)
    (embedQuery : Except String (List ℚ))
    (vectorSearchScores : List ℚ → List (Nat × ℚ))
    (ftsRows : Option (List (Nat × ℚ)))
    (limit : Nat) (minScore : ℚ) (keywordOnly : Bool) :
    Except String (List SearchResult) := do
  let tScores := textSearch ftsRows
  let vScores ← if keywordOnly then pure [] else do
    let qe ← embedQuery
    pure (vectorSearchScores qe)
  pure (fuseResults getChunk vScores tScores limit minScore keywordOnly)

/-- Python `round(q, 3)` as used by the MCP server on result scores,
embedded as exact rounding to thousandths. -/
def round3 (q : ℚ) : ℚ := (round (q * 1000) : ℚ) / 1000

/-- The result-building tail of the MCP server's `hybrid_search`
(`mcp_server.py` lines 157-190): same fusion as the CLI with
`keyword_only = False`, but score fields are rounded to 3 decimals. -/
def mcpFuseResults (getChunk : Nat → Option ChunkInfo)
    (vScores tScores : List (Nat × ℚ)) (limit : Nat) (minScore : ℚ) :
    List SearchResult :=
  let sortedResults :=
    (sortByDesc (fun x => x.2.1) (fuseFiltered vScores tScores minScore false)).take limit
  sortedResults.filterMap fun x =>
    match getChunk x.1 with
    | some row =>
      some ⟨row.filePath, row.lineStart, row.lineEnd, row.content,
            round3 x.2.1, round3 x.2.2.1, round3 x.2.2.2⟩
    | none => none

/-- `hybrid_search` from `mcp_server.py` (lines 147-190): unlike the CLI
version, the `get_embedding` call is wrapped in `try/except Exception`,
and on failure `vector_scores = {}` — the search degrades to the keyword
path alone instead of propagating. -/
def mcpHybridSearch (getChunk : Nat → Option ChunkInfo)
    (embedQuery : Except String (List ℚ))
    (vectorSearchScores : List ℚ → List (Nat × ℚ))
    (ftsRows : Option (List (Nat × ℚ)))
    (limit : Nat) (minScore : ℚ) : List SearchResult :=
  let tScores := textSearch ftsRows
  let vScores :=
    match embedQuery with
    | .ok qe => vectorSearchScores qe
    | .error _ => []
  mcpFuseResults getChunk vScores tScores limit minScore

/-! ## Cosine similarity (`search.py` lines 81-90, `mcp_server.py` 86-93)

The Python code computes over IEEE floats; the numerical claim is about
the underlying mathematical function, so we embed vectors as lists of
real numbers and the arithmetic exactly. -/

/-- `sum(x * y for x, y in zip(a, b))`. -/
noncomputable def dotList (a b : List ℝ) : ℝ :=
  ((a.zip b).map fun p => p.1 * p.2).sum

/-- `sum(x * x for x in a)`. -/
noncomputable def sumSq (a : List ℝ) : ℝ :=
  (a.map fun x => x * x).sum

/-- `cosine_similarity(a, b)`: `dot / (norm_a * norm_b)`, and `0.0` when
either norm is zero. -/
noncomputable def cosineSimilarity (a b : List ℝ) : ℝ :=
  let normA := Real.sqrt (sumSq a)
  let normB := Real.sqrt (sumSq b)
  if normA = 0 ∨ normB = 0 then 0 else dotList a b / (normA * normB)

/-! ## `tool_memory_get` (`mcp_server.py` lines 248-274) -/

/-- The JSON payload returned by `tool_memory_get`: either an `{error}`
object or the `{path, from, to, content}` object. -/
inductive GetResult where
  | fail (msg : String)
  | ok (path : String) (fromLine : Int) (toLine : Int) (content : String)
deriving Repr, DecidableEq

/-- Python list slicing `l[a:b]` for `a ≥ 0` (the only case reached in
`tool_memory_get`, since `start = max(0, ...)`): a negative `b` counts
from the end, and out-of-range bounds clamp. -/
def pySlice (l : List String) (a b : Int) : List String :=
  let b' : Int := if b < 0 then (l.length : Int) + b else b
  (l.take b'.toNat).drop a.toNat

/-- `tool_memory_get(arguments)` with the filesystem abstracted as
`fs : path ↦ file content` (`none` = the path does not exist).  Mirrors
the Python: empty path → error; missing file → error; otherwise split the
text into lines, `start = max(0, from-1)`, `end = min(len, start+lines)`,
return the joined slice with the requested `from` and the clamped `to`. -/
def toolMemoryGet (fs : String → Option String) (path : String)
    (fromLine : Int) (lines : Int) : GetResult :=
  if path = "" then .fail "Path is required"
  else
    match fs path with
    | none => .fail ("File not found: " ++ path)
    | some text =>
      let allLines := pySplitLines text
      let start : Int := max 0 (fromLine - 1)
      let stop : Int := min (allLines.length : Int) (start + lines)
      .ok path fromLine stop (joinLines (pySlice allLines start stop))

/-! ## The watcher's debounce state machine (`watcher.py` lines 33-106)

`MemoryFileHandler` keeps a pending set of file paths and one debounce
timer; event delivery and timer firing are serialized by `self.lock`, so
the reachable behaviours are the interleavings of atomic steps, which we
model as a sequential step function.  The relevance filter
`_should_handle` (markdown suffix, inside the memory tree) is abstracted
as a boolean predicate on paths. -/

/-- The handler state: the pending file set (kept as an insertion-ordered
duplicate-free list, modelling the Python `set`) and whether a debounce
timer is outstanding. -/
structure WatchState where
  pendingFiles : List String
  timerSet : Bool
deriving Repr, DecidableEq

/-- The events the handler reacts to: filesystem create/modify
notifications carrying the source path, and the debounce timer firing. -/
inductive WatchEvent where
  | created (path : String)
  | modified (path : String)
  | timerFire
deriving Repr, DecidableEq

/-- The path of a filesystem event, `none` for the timer. -/
def eventPath : WatchEvent → Option String
  | .created p => some p
  | .modified p => some p
  | .timerFire => none

/-- Whether an event is a create/modify notification for a file passing
the relevance filter `sh` (the `_should_handle` check guarding
`_schedule_index` in both `on_created` and `on_modified`). -/
def relevantFileEvent (sh : String → Bool) : WatchEvent → Bool
  | .created p => sh p
  | .modified p => sh p
  | .timerFire => false

/-- `set.add`: insert a path into the pending set (no duplicates). -/
def addPending (p : String) (s : List String) : List String :=
  if p ∈ s then s else s ++ [p]

/-- One atomic step of the handler (one critical section).
`_schedule_index`: add the path to the pending set, cancel any
outstanding timer and start a fresh one.  `_run_index` (timer fired):
grab and clear the pending set, drop the timer handle, and — when the
set is non-empty — invoke the indexer once, on the whole list of pending
files.  The second component reports that invocation's file list. -/
def watchStep (sh : String → Bool) (s : WatchState) :
    WatchEvent → WatchState × Option (List String)
  | .created p =>
    if sh p then (⟨addPending p s.pendingFiles, true⟩, none) else (s, none)
  | .modified p =>
    if sh p then (⟨addPending p s.pendingFiles, true⟩, none) else (s, none)
  | .timerFire =>
    let files := s.pendingFiles
    if files.isEmpty then (⟨[], false⟩, none)
    else (⟨[], false⟩, some files)

/-- Run the handler over a sequence of events from a starting state,
collecting the indexer invocations in order. -/
def watchRun (sh : String → Bool) (s : WatchState) :
    List WatchEvent → WatchState × List (List String)
  | [] => (s, [])
  | e :: es =>
    let step := watchStep sh s e
    let rest := watchRun sh step.1 es
    (rest.1, step.2.toList ++ rest.2)

/-! ## C6: chunking the empty document -/

/-- C6, counterexample.  The claim says `chunk_text` applied to an empty
document yields no chunks.  It does not: Python's `"".split('\n')` is
`[""]` — one empty line — so the final-buffer emission produces one
chunk, and the chunk list is non-empty. -/
theorem c6_counterexample : chunkText "" "memory/a.md" ≠ [] := by decide

/-- C6, amended: `chunk_text` applied to an empty document yields exactly
one chunk, with empty content, spanning lines 1 to 1. -/
theorem c6_empty_doc_single_chunk (fp : String) :
    chunkText "" fp = [⟨fp, "", 1, 1⟩] := rfl

/-! ## C1: behaviour of hybrid search when the embedding call fails -/

/-- C1, counterexample.  In the CLI `hybrid_search` of `search.py` the
`get_embedding(query)` call is not guarded: when the provider call fails
(and `keyword_only` is not set), the failure propagates to the caller
instead of degrading to keyword-only scoring — even with keyword
candidates available, the call returns the error, not a result list. -/
theorem c1_counterexample :
    hybridSearch (fun _ => none) (.error "timeout") (fun _ => [])
      (some [(1, -5), (2, -3)]) 6 (1/4) false = .error "timeout" := rfl

/-- C1, amended: only the MCP server's `hybrid_search` degrades.  Its
`try/except` around `get_embedding` turns any provider failure into an
empty vector-score map, so the operation still returns a result list,
computed from the keyword path alone (every vector contribution zero);
the CLI `hybrid_search` of `search.py` instead propagates the failure
unless `keyword_only` was requested. -/
theorem c1_mcp_degrades_cli_propagates
    (getChunk : Nat → Option ChunkInfo) (err : String)
    (vsf : List ℚ → List (Nat × ℚ)) (ftsRows : Option (List (Nat × ℚ)))
    (limit : Nat) (minScore : ℚ) :
    mcpHybridSearch getChunk (.error err) vsf ftsRows limit minScore =
      mcpFuseResults getChunk [] (textSearch ftsRows) limit minScore ∧
    hybridSearch getChunk (.error err) vsf ftsRows limit minScore false =
      .error err ∧
    hybridSearch getChunk (.error err) vsf ftsRows limit minScore true =
      .ok (fuseResults getChunk [] (textSearch ftsRows) limit minScore true) :=
  ⟨rfl, rfl, rfl⟩

/-! ## C8: `tool_memory_get` line windows -/

/-- C8: `memory_get` on a missing path returns the error payload; on an
existing file with `from ≥ 1` and `lines ≥ 0` it returns an `ok` payload
whose `to` field is the window end clamped to the file's line count; and
on the concrete 10-line file, `from=5, lines=3` returns exactly lines
5-7 while `from=9, lines=10` returns exactly lines 9-10. -/
theorem c8_memory_get_clamps
    (fs : String → Option String) (text path : String) (f l : Int)
    (hpath : path ≠ "") (hsome : fs path = some text)
    (hf : 1 ≤ f) (hl : 0 ≤ l) :
    (∀ (fs' : String → Option String) (path' : String) (f' l' : Int),
      path' ≠ "" → fs' path' = none →
      toolMemoryGet fs' path' f' l' = .fail ("File not found: " ++ path')) ∧
    toolMemoryGet fs path f l =
      .ok path f (min ((pySplitLines text).length : Int) (f - 1 + l))
        (joinLines (pySlice (pySplitLines text) (f - 1)
          (min ((pySplitLines text).length : Int) (f - 1 + l)))) ∧
    min ((pySplitLines text).length : Int) (f - 1 + l) ≤ (pySplitLines text).length ∧
    toolMemoryGet
      (fun p => if p = "notes.md" then some "a\nb\nc\nd\ne\nf\ng\nh\ni\nj" else none)
      "notes.md" 5 3 = .ok "notes.md" 5 7 "e\nf\ng" ∧
    toolMemoryGet
      (fun p => if p = "notes.md" then some "a\nb\nc\nd\ne\nf\ng\nh\ni\nj" else none)
      "notes.md" 9 10 = .ok "notes.md" 9 10 "i\nj" := by
  refine ⟨?_, ?_, ?_, by decide, by decide⟩
  · intro fs' path' f' l' hp hn
    simp only [toolMemoryGet, if_neg hp, hn]
  · have hmax : max 0 (f - 1) = f - 1 := by omega
    simp only [toolMemoryGet, if_neg hpath, hsome, hmax]
  · exact min_le_left _ _

/-- C8, witness: the clamping theorem applied to the concrete 10-line
file at `from=5, lines=3`. -/
theorem c8_memory_get_clamps_witness :
    toolMemoryGet
      (fun p => if p = "notes.md" then some "a\nb\nc\nd\ne\nf\ng\nh\ni\nj" else none)
      "notes.md" 5 3 =
      .ok "notes.md" 5
        (min ((pySplitLines "a\nb\nc\nd\ne\nf\ng\nh\ni\nj").length : Int) (5 - 1 + 3))
        (joinLines (pySlice (pySplitLines "a\nb\nc\nd\ne\nf\ng\nh\ni\nj") (5 - 1)
          (min ((pySplitLines "a\nb\nc\nd\ne\nf\ng\nh\ni\nj").length : Int) (5 - 1 + 3)))) :=
  (c8_memory_get_clamps
    (fun p => if p = "notes.md" then some "a\nb\nc\nd\ne\nf\ng\nh\ni\nj" else none)
    "a\nb\nc\nd\ne\nf\ng\nh\ni\nj" "notes.md" 5 3 (by decide) (by decide)
    (by decide) (by decide)).2.1

/-! ## C5: chunk coverage, ordering, and well-formed line ranges -/

theorem overlapAux_length_le (rev : List String) :
    ∀ tok acc, ((overlapAux rev tok acc).1).length ≤ rev.length + acc.length := by
  induction rev with
  | nil => intro tok acc; simp [overlapAux]
  | cons l ls ih =>
    intro tok acc
    simp only [overlapAux]
    split
    · exact Nat.le_add_left _ _
    · have := ih (tok + estimateTokens l) (l :: acc)
      simp only [List.length_cons] at this ⊢
      omega

theorem overlapTail_length_le (ls : List String) :
    (overlapTail ls).1.length ≤ ls.length := by
  simpa using overlapAux_length_le ls.reverse 0 []

/-- Every chunk produced by `chunkLoop` starts at or after the current
buffer start, has a start at most its end, and ends within the document. -/
theorem chunkLoop_bounds (fp : String) (rest : List String) :
    ∀ i acc start tok, start + acc.length = i → acc.length ≤ i →
      ∀ c ∈ chunkLoop fp rest i acc start tok,
        start + 1 ≤ c.lineStart ∧ c.lineStart ≤ c.lineEnd ∧
          c.lineEnd ≤ i + rest.length := by
  induction rest with
  | nil =>
    intro i acc start tok h _ c hc
    simp only [chunkLoop] at hc
    split at hc
    · simp at hc
    · next hne =>
      rw [List.mem_singleton] at hc
      subst hc
      have : acc.length ≠ 0 := by simpa [List.isEmpty_iff, List.length_eq_zero] using hne
      refine ⟨le_refl _, by simp; omega, by simp; omega⟩
  | cons line rest' ih =>
    intro i acc start tok h hacc c hc
    simp only [chunkLoop] at hc
    split at hc
    · next hcond =>
      have hov := overlapTail_length_le acc
      rcases List.mem_cons.mp hc with hc | hc
      · subst hc
        have : acc.length ≠ 0 := by
          have := hcond.2; simpa [List.length_eq_zero] using this
        refine ⟨le_refl _, by simp; omega, by simp; omega⟩
      · have h' : (i - (overlapTail acc).1.length) + ((overlapTail acc).1 ++ [line]).length
            = i + 1 := by simp; omega
        have hacc' : ((overlapTail acc).1 ++ [line]).length ≤ i + 1 := by simp; omega
        have := ih (i + 1) _ _ _ h' hacc' c hc
        refine ⟨?_, this.2.1, ?_⟩
        · have := this.1; omega
        · have := this.2.2; simp at this ⊢; omega
    · have h' : start + (acc ++ [line]).length = i + 1 := by simp; omega
      have hacc' : (acc ++ [line]).length ≤ i + 1 := by simp; omega
      have := ih (i + 1) _ _ _ h' hacc' c hc
      refine ⟨this.1, this.2.1, ?_⟩
      have := this.2.2; simp at this ⊢; omega

/-- Chunks are emitted in non-decreasing order of start line. -/
theorem chunkLoop_sorted (fp : String) (rest : List String) :
    ∀ i acc start tok, start + acc.length = i → acc.length ≤ i →
      (chunkLoop fp rest i acc start tok).Pairwise
        (fun a b => a.lineStart ≤ b.lineStart) := by
  induction rest with
  | nil =>
    intro i acc start tok _ _
    simp only [chunkLoop]
    split
    · simp
    · simp
  | cons line rest' ih =>
    intro i acc start tok h hacc
    simp only [chunkLoop]
    split
    · next hcond =>
      have hov := overlapTail_length_le acc
      have h' : (i - (overlapTail acc).1.length) + ((overlapTail acc).1 ++ [line]).length
          = i + 1 := by simp; omega
      have hacc' : ((overlapTail acc).1 ++ [line]).length ≤ i + 1 := by simp; omega
      refine List.pairwise_cons.mpr ⟨?_, ih (i + 1) _ _ _ h' hacc'⟩
      intro c hc
      have := (chunkLoop_bounds fp rest' (i + 1) _ _ _ h' hacc' c hc).1
      simp only
      omega
    · have h' : start + (acc ++ [line]).length = i + 1 := by simp; omega
      have hacc' : (acc ++ [line]).length ≤ i + 1 := by simp; omega
      exact ih (i + 1) _ _ _ h' hacc'

/-- Every document line from the buffer start onwards is covered by some
emitted chunk. -/
theorem chunkLoop_covers (fp : String) (rest : List String) :
    ∀ i acc start tok, start + acc.length = i → acc.length ≤ i →
      ∀ ln, start + 1 ≤ ln → ln ≤ i + rest.length →
        ∃ c ∈ chunkLoop fp rest i acc start tok,
          c.lineStart ≤ ln ∧ ln ≤ c.lineEnd := by
  induction rest with
  | nil =>
    intro i acc start tok h _ ln h1 h2
    simp only [List.length_nil, Nat.add_zero] at h2
    have hne : ¬ acc.isEmpty := by
      rw [List.isEmpty_iff, List.length_eq_zero.symm]
      omega
    refine ⟨⟨fp, joinLines acc, start + 1, start + acc.length⟩, ?_, by simp; omega⟩
    simp [chunkLoop, hne]
  | cons line rest' ih =>
    intro i acc start tok h hacc ln h1 h2
    simp only [chunkLoop]
    split
    · next hcond =>
      have hov := overlapTail_length_le acc
      have h' : (i - (overlapTail acc).1.length) + ((overlapTail acc).1 ++ [line]).length
          = i + 1 := by simp; omega
      have hacc' : ((overlapTail acc).1 ++ [line]).length ≤ i + 1 := by simp; omega
      by_cases hln : ln ≤ i
      · exact ⟨⟨fp, joinLines acc, start + 1, start + acc.length⟩,
          List.mem_cons_self _ _, by simp; omega⟩
      · have h2' : ln ≤ (i + 1) + rest'.length := by simp at h2; omega
        obtain ⟨c, hc, hcov⟩ := ih (i + 1) _ _ _ h' hacc' ln (by omega) h2'
        exact ⟨c, List.mem_cons_of_mem _ hc, hcov⟩
    · have h' : start + (acc ++ [line]).length = i + 1 := by simp; omega
      have hacc' : (acc ++ [line]).length ≤ i + 1 := by simp; omega
      exact ih (i + 1) _ _ _ h' hacc' ln h1 (by simp at h2; omega)

/-- C5: for every document, the chunks of `chunk_text` cover every
1-indexed source line at least once, are emitted in non-decreasing order
of start line, and each satisfies `line_start ≤ line_end`. -/
theorem c5_chunking_lossless_ordered (text fp : String) :
    (∀ ln, 1 ≤ ln → ln ≤ (pySplitLines text).length →
      ∃ c ∈ chunkText text fp, c.lineStart ≤ ln ∧ ln ≤ c.lineEnd) ∧
    (chunkText text fp).Pairwise (fun a b => a.lineStart ≤ b.lineStart) ∧
    (∀ c ∈ chunkText text fp, c.lineStart ≤ c.lineEnd) := by
  refine ⟨?_, ?_, ?_⟩
  · intro ln h1 h2
    exact chunkLoop_covers fp (pySplitLines text) 0 [] 0 0 rfl (by simp) ln h1
      (by simpa using h2)
  · exact chunkLoop_sorted fp (pySplitLines text) 0 [] 0 0 rfl (by simp)
  · intro c hc
    exact (chunkLoop_bounds fp (pySplitLines text) 0 [] 0 0 rfl (by simp) c hc).2.1

/-- C5, witness: on the two-line document `"a\nb"`, line 2 is covered by
a chunk. -/
theorem c5_chunking_lossless_ordered_witness :
    ∃ c ∈ chunkText "a\nb" "m", c.lineStart ≤ 2 ∧ 2 ≤ c.lineEnd :=
  (c5_chunking_lossless_ordered "a\nb" "m").1 2 (by decide) (by decide)

/-! ## C2: the chunk/embedding 1:1 invariant under ingestion -/

/-- How many chunk rows carry id `i`. -/
def chunkIdCount (db : Store) (i : Nat) : Nat :=
  db.chunks.countP fun c => decide (c.id = i)

/-- How many embedding rows reference chunk id `i`. -/
def embIdCount (db : Store) (i : Nat) : Nat :=
  db.embeddings.countP fun e => decide (e.chunkId = i)

/-- Store well-formedness, the facts SQLite guarantees: every stored id
is below the row-id allocator, and chunk ids are pairwise distinct. -/
def StoreWF (db : Store) : Prop :=
  (∀ c ∈ db.chunks, c.id < db.nextId) ∧
  (∀ e ∈ db.embeddings, e.chunkId < db.nextId) ∧
  (db.chunks.map ChunkRow.id).Nodup

/-- The two tables correspond 1:1 by id: each id occurs equally often
among chunk rows and embedding rows. -/
def Balanced (db : Store) : Prop := ∀ i, chunkIdCount db i = embIdCount db i

theorem length_eq_of_countP_eq (l1 l2 : List Nat)
    (h : ∀ i, l1.countP (fun x => decide (x = i)) = l2.countP (fun x => decide (x = i))) :
    l1.length = l2.length := by
  have hm : (l1 : Multiset Nat) = (l2 : Multiset Nat) := by
    rw [Multiset.ext]
    intro a
    rw [Multiset.coe_count, Multiset.coe_count, List.count_eq_countP,
      List.count_eq_countP]
    have h1 : ∀ (l : List Nat),
        l.countP (fun x => x == a) = l.countP (fun x => decide (x = a)) := by
      intro l
      apply List.countP_congr
      intro x _
      simp
    rw [h1, h1]
    exact h a
  have := congrArg Multiset.card hm
  simpa using this

theorem balanced_lengths (db : Store) (hb : Balanced db) :
    db.chunks.length = db.embeddings.length := by
  have h : ∀ i, (db.chunks.map ChunkRow.id).countP (fun x => decide (x = i)) =
      (db.embeddings.map EmbRow.chunkId).countP (fun x => decide (x = i)) := by
    intro i
    rw [List.countP_map, List.countP_map]
    exact hb i
  have := length_eq_of_countP_eq _ _ h
  simpa using this

theorem balanced_no_orphan_chunk (db : Store) (hb : Balanced db) :
    ∀ c ∈ db.chunks, ∃ e ∈ db.embeddings, e.chunkId = c.id := by
  intro c hc
  have hpos : 0 < chunkIdCount db c.id := by
    rw [chunkIdCount, List.countP_pos]
    exact ⟨c, hc, by simp⟩
  rw [hb c.id, embIdCount, List.countP_pos] at hpos
  obtain ⟨e, he, hid⟩ := hpos
  exact ⟨e, he, by simpa using hid⟩

theorem deleteFileRows_preserves (rel : String) (db : Store)
    (hwf : StoreWF db) (hb : Balanced db) :
    StoreWF (deleteFileRows rel db) ∧ Balanced (deleteFileRows rel db) := by
  obtain ⟨hwc, hwe, hnd⟩ := hwf
  constructor
  · refine ⟨?_, ?_, ?_⟩
    · intro c hc
      exact hwc c (List.mem_of_mem_filter hc)
    · intro e he
      exact hwe e (List.mem_of_mem_filter he)
    · exact (List.Sublist.map ChunkRow.id (List.filter_sublist _)).nodup hnd
  · intro i
    by_cases hex : db.chunks.any fun c => decide (c.filePath = rel) && decide (c.id = i)
    · obtain ⟨c0, hc0, hc0p⟩ := List.any_eq_true.mp hex
      simp only [Bool.and_eq_true, decide_eq_true_eq] at hc0p
      have hzc : chunkIdCount (deleteFileRows rel db) i = 0 := by
        rw [chunkIdCount, List.countP_eq_zero]
        intro c hc
        simp only [deleteFileRows] at hc
        rw [List.mem_filter] at hc
        simp only [decide_eq_true_eq] at hc ⊢
        intro hid
        have : c = c0 :=
          List.inj_on_of_nodup_map hnd hc.1 hc0 (by rw [hid, hc0p.2])
        subst this
        exact hc.2 hc0p.1
      have hze : embIdCount (deleteFileRows rel db) i = 0 := by
        rw [embIdCount, List.countP_eq_zero]
        intro e he
        simp only [deleteFileRows] at he
        rw [List.mem_filter] at he
        simp only [decide_eq_true_eq] at he ⊢
        intro hid
        have : db.chunks.any fun c => decide (c.filePath = rel) && decide (c.id = e.chunkId) := by
          rw [List.any_eq_true]
          exact ⟨c0, hc0, by simp [hc0p.1, hc0p.2, hid]⟩
        rw [this] at he
        exact absurd he.2 (by simp)
      rw [hzc, hze]
    · have hnone : ∀ c ∈ db.chunks, ¬ (c.filePath = rel ∧ c.id = i) := by
        intro c hc hcp
        exact hex (List.any_eq_true.mpr ⟨c, hc, by simp [hcp.1, hcp.2]⟩)
      have hcc : chunkIdCount (deleteFileRows rel db) i = chunkIdCount db i := by
        rw [chunkIdCount, chunkIdCount, deleteFileRows]
        rw [List.countP_filter]
        apply List.countP_congr
        intro c hc
        simp only [Bool.and_eq_true, decide_eq_true_eq, ne_eq]
        constructor
        · intro h; exact h.1
        · intro h
          exact ⟨h, fun hrel => hnone c hc ⟨hrel, h⟩⟩
      have hec : embIdCount (deleteFileRows rel db) i = embIdCount db i := by
        rw [embIdCount, embIdCount, deleteFileRows]
        rw [List.countP_filter]
        apply List.countP_congr
        intro e he
        simp only [Bool.and_eq_true, decide_eq_true_eq, Bool.not_eq_true']
        constructor
        · intro h; exact h.1
        · intro h
          refine ⟨h, ?_⟩
          rw [List.any_eq_false]
          intro c hc
          simp only [Bool.and_eq_true, decide_eq_true_eq, not_and]
          intro hrel hid
          exact hnone c hc ⟨hrel, by rw [hid, h]⟩
      rw [hcc, hec]
      exact hb i

theorem fresh_chunk_count (db : Store) (hwc : ∀ c ∈ db.chunks, c.id < db.nextId) :
    chunkIdCount db db.nextId = 0 := by
  rw [chunkIdCount, List.countP_eq_zero]
  intro c hc
  simpa using Nat.ne_of_lt (hwc c hc)

theorem fresh_emb_count (db : Store) (hwe : ∀ e ∈ db.embeddings, e.chunkId < db.nextId) :
    embIdCount db db.nextId = 0 := by
  rw [embIdCount, List.countP_eq_zero]
  intro e he
  simpa using Nat.ne_of_lt (hwe e he)

/-- Appending one chunk row together with its (fresh-id) embedding row
preserves the 1:1 correspondence. -/
theorem balanced_append_pair (db db' : Store) (newC : ChunkRow) (newE : EmbRow)
    (hid : newE.chunkId = newC.id)
    (h1 : db'.chunks = db.chunks ++ [newC])
    (h2 : db'.embeddings = db.embeddings ++ [newE])
    (hfc : chunkIdCount db newC.id = 0) (hfe : embIdCount db newC.id = 0)
    (hb : Balanced db) : Balanced db' := by
  intro i
  rw [chunkIdCount, embIdCount, h1, h2, List.countP_append, List.countP_append]
  by_cases hi : newC.id = i
  · have hc0 : db.chunks.countP (fun c => decide (c.id = i)) = 0 := by
      rw [← hi]; exact hfc
    have he0 : db.embeddings.countP (fun e => decide (e.chunkId = i)) = 0 := by
      rw [← hi]; exact hfe
    rw [hc0, he0]
    simp [List.countP_cons, hi, hid]
  · have hbi := hb i
    rw [chunkIdCount, embIdCount] at hbi
    rw [hbi]
    simp only [List.countP_cons, List.countP_nil]
    have h3 : (decide (newC.id = i)) = false := by simpa using hi
    have h4 : (decide (newE.chunkId = i)) = false := by
      rw [hid]; simpa using hi
    rw [h3, h4]

theorem indexChunks_preserves (hash : String → String)
    (embed : Nat → Option (List ℚ)) (rel : String) (L : List Chunk) :
    ∀ n db added skipped, StoreWF db → Balanced db →
      StoreWF (indexChunks hash embed rel L n db added skipped).1 ∧
        Balanced (indexChunks hash embed rel L n db added skipped).1 := by
  induction L with
  | nil => intro n db added skipped hwf hb; exact ⟨hwf, hb⟩
  | cons ch rest ih =>
    intro n db added skipped hwf hb
    obtain ⟨hwc, hwe, hnd⟩ := hwf
    simp only [indexChunks]
    split
    · exact ih (n + 1) db added (skipped + 1) ⟨hwc, hwe, hnd⟩ hb
    · split
      · next v hv =>
        apply ih
        · refine ⟨?_, ?_, ?_⟩
          · intro c hc
            rcases List.mem_append.mp hc with hc | hc
            · exact Nat.lt_succ_of_lt (hwc c hc)
            · rw [List.mem_singleton] at hc
              subst hc
              exact Nat.lt_succ_self _
          · intro e he
            rcases List.mem_append.mp he with he | he
            · exact Nat.lt_succ_of_lt (hwe e he)
            · rw [List.mem_singleton] at he
              subst he
              exact Nat.lt_succ_self _
          · rw [List.map_append, List.nodup_append]
            refine ⟨hnd, by simp, ?_⟩
            intro a ha hb'
            simp only [List.map_cons, List.map_nil, List.mem_singleton] at hb'
            subst hb'
            obtain ⟨c, hc, hcid⟩ := List.mem_map.mp ha
            exact absurd hcid (Nat.ne_of_lt (hwc c hc))
        · exact balanced_append_pair db _ _ _ rfl rfl rfl
            (fresh_chunk_count db hwc) (fresh_emb_count db hwe) hb
      · next hv =>
        have heq : List.filter (fun c => decide (c.id ≠ db.nextId))
            (db.chunks ++
              [{ id := db.nextId, filePath := rel, lineStart := ch.lineStart,
                 lineEnd := ch.lineEnd, content := ch.content,
                 contentHash := hash ch.content }]) = db.chunks := by
          rw [List.filter_append]
          have h1 : List.filter (fun c => decide (c.id ≠ db.nextId)) db.chunks = db.chunks := by
            rw [List.filter_eq_self]
            intro c hc
            simp only [decide_eq_true_eq, ne_eq]
            exact Nat.ne_of_lt (hwc c hc)
          rw [h1]
          simp
        simp only [heq]
        apply ih
        · refine ⟨?_, ?_, hnd⟩
          · intro c hc
            exact Nat.lt_succ_of_lt (hwc c hc)
          · intro e he
            exact Nat.lt_succ_of_lt (hwe e he)
        · intro i
          exact hb i

theorem chunkIdCount_le_one (db : Store)
    (hnd : (db.chunks.map ChunkRow.id).Nodup) (i : Nat) :
    chunkIdCount db i ≤ 1 := by
  have hcnt : List.count i (db.chunks.map ChunkRow.id) = chunkIdCount db i := by
    rw [List.count_eq_countP, List.countP_map, chunkIdCount]
    apply List.countP_congr
    intro c _
    simp
  rw [← hcnt]
  exact List.nodup_iff_count_le_one.mp hnd i

/-- C2, counterexample.  The claim's precondition only requires every
*chunk* to have exactly one embedding; it does not exclude orphan
embedding rows.  Starting from a store with no chunks but one stray
embedding row (precondition vacuously true), a completed `index_file`
run leaves 1 chunk row against 2 embedding rows. -/
theorem c2_counterexample :
    (∀ c ∈ (Store.mk [] [⟨5, [], "m"⟩] 6).chunks,
      embIdCount (Store.mk [] [⟨5, [], "m"⟩] 6) c.id = 1) ∧
    (indexFile (fun s => s) (fun _ => some []) "m" "hi" false
      (Store.mk [] [⟨5, [], "m"⟩] 6)).1.chunks.length ≠
    (indexFile (fun s => s) (fun _ => some []) "m" "hi" false
      (Store.mk [] [⟨5, [], "m"⟩] 6)).1.embeddings.length := by
  constructor
  · intro c hc
    simp at hc
  · decide

/-- C2, amended: for every completed `index_file` run (with or without
`force`, and with arbitrary per-chunk embedding failures), if before the
run the store is well formed (distinct chunk ids, all ids below the
allocator) and chunks and embeddings correspond 1:1 — every stored chunk
has exactly one embedding *and every embedding row references a stored
chunk* — then after the run the number of chunk rows equals the number
of embedding rows and no chunk row exists without an embedding row. -/
theorem c2_no_orphan_embeddings (hash : String → String)
    (embed : Nat → Option (List ℚ)) (rel text : String) (force : Bool)
    (db : Store) (hwf : StoreWF db)
    (hone : ∀ c ∈ db.chunks, embIdCount db c.id = 1)
    (hnoorph : ∀ e ∈ db.embeddings, ∃ c ∈ db.chunks, c.id = e.chunkId) :
    (indexFile hash embed rel text force db).1.chunks.length =
      (indexFile hash embed rel text force db).1.embeddings.length ∧
    ∀ c ∈ (indexFile hash embed rel text force db).1.chunks,
      ∃ e ∈ (indexFile hash embed rel text force db).1.embeddings,
        e.chunkId = c.id := by
  obtain ⟨hwc, hwe, hnd⟩ := hwf
  have hb : Balanced db := by
    intro i
    by_cases hex : ∃ c ∈ db.chunks, c.id = i
    · obtain ⟨c, hc, hci⟩ := hex
      have h1 : 0 < chunkIdCount db i := by
        rw [chunkIdCount, List.countP_pos]
        exact ⟨c, hc, by simp [hci]⟩
      have h2 : chunkIdCount db i ≤ 1 := chunkIdCount_le_one db hnd i
      have h3 : embIdCount db i = 1 := by
        rw [← hci]
        exact hone c hc
      omega
    · have h1 : chunkIdCount db i = 0 := by
        rw [chunkIdCount, List.countP_eq_zero]
        intro c hc
        simp only [decide_eq_true_eq]
        intro hci
        exact hex ⟨c, hc, hci⟩
      have h2 : embIdCount db i = 0 := by
        rw [embIdCount, List.countP_eq_zero]
        intro e he
        simp only [decide_eq_true_eq]
        intro hei
        obtain ⟨c, hc, hci⟩ := hnoorph e he
        exact hex ⟨c, hc, by rw [hci, hei]⟩
      rw [h1, h2]
  have hstep : StoreWF (indexFile hash embed rel text force db).1 ∧
      Balanced (indexFile hash embed rel text force db).1 := by
    simp only [indexFile]
    cases force with
    | true =>
      obtain ⟨hwf', hb'⟩ :=
        deleteFileRows_preserves rel db ⟨hwc, hwe, hnd⟩ hb
      simpa using
        indexChunks_preserves hash embed rel (chunkText text rel) 0
          (deleteFileRows rel db) 0 0 hwf' hb'
    | false =>
      simpa using
        indexChunks_preserves hash embed rel (chunkText text rel) 0 db 0 0
          ⟨hwc, hwe, hnd⟩ hb
  exact ⟨balanced_lengths _ hstep.2, balanced_no_orphan_chunk _ hstep.2⟩

/-- C2, witness: a fresh store ingesting a one-line file with all
embedding calls succeeding. -/
theorem c2_no_orphan_embeddings_witness :
    (indexFile (fun s => s) (fun _ => some []) "m" "hi" false
      (Store.mk [] [] 0)).1.chunks.length =
      (indexFile (fun s => s) (fun _ => some []) "m" "hi" false
        (Store.mk [] [] 0)).1.embeddings.length ∧
    ∀ c ∈ (indexFile (fun s => s) (fun _ => some []) "m" "hi" false
        (Store.mk [] [] 0)).1.chunks,
      ∃ e ∈ (indexFile (fun s => s) (fun _ => some []) "m" "hi" false
          (Store.mk [] [] 0)).1.embeddings, e.chunkId = c.id :=
  c2_no_orphan_embeddings (fun s => s) (fun _ => some []) "m" "hi" false
    (Store.mk [] [] 0) ⟨by simp, by simp, by simp⟩ (by simp) (by simp)

/-! ## C4: idempotent re-ingestion of unchanged content -/

theorem indexChunks_chunks_mono (hash : String → String)
    (embed : Nat → Option (List ℚ)) (rel : String)
    (hok : ∀ n, embed n ≠ none) (L : List Chunk) :
    ∀ n db a s r, r ∈ db.chunks →
      r ∈ (indexChunks hash embed rel L n db a s).1.chunks := by
  induction L with
  | nil => intro n db a s r hr; exact hr
  | cons ch rest ih =>
    intro n db a s r hr
    simp only [indexChunks]
    split
    · exact ih (n + 1) db a (s + 1) r hr
    · cases hembed : embed n with
      | none => exact absurd hembed (hok n)
      | some v =>
        simp only [hembed]
        exact ih (n + 1) _ _ _ r (List.mem_append_left _ hr)

theorem indexChunks_matches (hash : String → String)
    (embed : Nat → Option (List ℚ)) (rel : String)
    (hok : ∀ n, embed n ≠ none) (L : List Chunk) :
    ∀ n db a s, ∀ ch ∈ L,
      ∃ r ∈ (indexChunks hash embed rel L n db a s).1.chunks,
        matchesChunk rel ch.lineStart (hash ch.content) r = true := by
  induction L with
  | nil => intro n db a s ch hch; exact absurd hch (List.not_mem_nil ch)
  | cons ch' rest ih =>
    intro n db a s ch hch
    simp only [indexChunks]
    split
    · next hany =>
      rcases List.mem_cons.mp hch with hch | hch
      · subst hch
        obtain ⟨r, hr, hm⟩ := List.any_eq_true.mp hany
        exact ⟨r, indexChunks_chunks_mono hash embed rel hok rest (n + 1) db a
          (s + 1) r hr, hm⟩
      · exact ih (n + 1) db a (s + 1) ch hch
    · cases hembed : embed n with
      | none => exact absurd hembed (hok n)
      | some v =>
        simp only [hembed]
        rcases List.mem_cons.mp hch with hch | hch
        · subst hch
          refine ⟨⟨db.nextId, rel, ch.lineStart, ch.lineEnd, ch.content,
            hash ch.content⟩, ?_, by simp [matchesChunk]⟩
          apply indexChunks_chunks_mono hash embed rel hok rest (n + 1) _ _ _
          exact List.mem_append_right _ (List.mem_singleton_self _)
        · exact ih (n + 1) _ _ _ ch hch

theorem indexChunks_all_skip (hash : String → String)
    (embed : Nat → Option (List ℚ)) (rel : String) (L : List Chunk) :
    ∀ n db a s,
      (∀ ch ∈ L, ∃ r ∈ db.chunks,
        matchesChunk rel ch.lineStart (hash ch.content) r = true) →
      indexChunks hash embed rel L n db a s = (db, a, s + L.length) := by
  induction L with
  | nil => intro n db a s _; simp [indexChunks]
  | cons ch rest ih =>
    intro n db a s hall
    obtain ⟨r, hr, hm⟩ := hall ch (List.mem_cons_self _ _)
    have hany : db.chunks.any (matchesChunk rel ch.lineStart (hash ch.content)) = true :=
      List.any_eq_true.mpr ⟨r, hr, hm⟩
    simp only [indexChunks, hany, if_true]
    rw [ih (n + 1) db a (s + 1) fun ch' hch' => hall ch' (List.mem_cons_of_mem _ hch')]
    simp only [List.length_cons, Prod.mk.injEq, true_and]
    omega

/-- C4: running `index_file` (without `force`) a second time on a file
whose content is unchanged inserts no new chunks: provided the first
run's embedding calls all succeeded, the second run reports
`chunks_added = 0`, skips every chunk via the (file path, start line,
content hash) dedup probe (`chunks_skipped` equals the number of
chunks), and returns the stored state entirely unchanged. -/
theorem c4_idempotent_reingestion (hash : String → String)
    (embed1 embed2 : Nat → Option (List ℚ)) (rel text : String) (db : Store)
    (h1 : ∀ n, embed1 n ≠ none) :
    indexFile hash embed2 rel text false
        (indexFile hash embed1 rel text false db).1 =
      ((indexFile hash embed1 rel text false db).1, 0,
        (chunkText text rel).length) := by
  have hmatch :=
    indexChunks_matches hash embed1 rel h1 (chunkText text rel) 0 db 0 0
  simp only [indexFile, Bool.false_eq_true, if_false] at hmatch ⊢
  rw [indexChunks_all_skip hash embed2 rel (chunkText text rel) 0 _ 0 0
    fun ch hch => hmatch ch hch]
  simp

/-- C4, witness: a fresh store, a one-line file, all embeddings succeed
on the first run; the second run (here with an always-failing provider,
which is never consulted) adds nothing and changes nothing. -/
theorem c4_idempotent_reingestion_witness :
    indexFile (fun s => s) (fun _ => none) "m" "a" false
        (indexFile (fun s => s) (fun _ => some []) "m" "a" false
          (Store.mk [] [] 0)).1 =
      ((indexFile (fun s => s) (fun _ => some []) "m" "a" false
          (Store.mk [] [] 0)).1, 0, (chunkText "a" "m").length) :=
  c4_idempotent_reingestion (fun s => s) (fun _ => some []) (fun _ => none)
    "m" "a" (Store.mk [] [] 0) (fun _ => Option.some_ne_none _)

/-! ## C9: debounce collapses bursts into one ingestion call -/

theorem addPending_nodup (p : String) (s : List String) (h : s.Nodup) :
    (addPending p s).Nodup := by
  rw [addPending]
  split
  · exact h
  · next hnot =>
    simpa [List.nodup_append] using ⟨h, hnot⟩

theorem mem_addPending (p q : String) (s : List String) :
    q ∈ addPending p s ↔ q ∈ s ∨ q = p := by
  rw [addPending]
  split
  · next hmem =>
    constructor
    · exact fun h => Or.inl h
    · rintro (h | rfl)
      · exact h
      · exact hmem
  · simp

theorem watchRun_append (sh : String → Bool) (l1 l2 : List WatchEvent) :
    ∀ s, watchRun sh s (l1 ++ l2) =
      ((watchRun sh (watchRun sh s l1).1 l2).1,
        (watchRun sh s l1).2 ++ (watchRun sh (watchRun sh s l1).1 l2).2) := by
  induction l1 with
  | nil => intro s; simp [watchRun]
  | cons e es ih =>
    intro s
    simp only [List.cons_append, watchRun]
    rw [show es.append l2 = es ++ l2 from rfl, ih]
    simp [List.append_assoc]

/-- Processing a block of relevant file events produces no ingestion
calls, arms the timer, keeps the pending set duplicate-free, and leaves
it holding exactly the old paths plus the event paths. -/
theorem watchRun_fileEvents (sh : String → Bool) (evs : List WatchEvent)
    (hrel : ∀ e ∈ evs, relevantFileEvent sh e = true) :
    ∀ s : WatchState, s.pendingFiles.Nodup →
      (watchRun sh s evs).2 = [] ∧
      (watchRun sh s evs).1.pendingFiles.Nodup ∧
      (∀ p, p ∈ (watchRun sh s evs).1.pendingFiles ↔
        p ∈ s.pendingFiles ∨ ∃ e ∈ evs, eventPath e = some p) := by
  induction evs with
  | nil =>
    intro s hnd
    refine ⟨rfl, hnd, ?_⟩
    simp [watchRun]
  | cons e es ih =>
    intro s hnd
    have hrele : relevantFileEvent sh e = true := hrel e (List.mem_cons_self _ _)
    have hres : ∀ e' ∈ es, relevantFileEvent sh e' = true :=
      fun e' he' => hrel e' (List.mem_cons_of_mem _ he')
    cases e with
    | timerFire => simp [relevantFileEvent] at hrele
    | created q =>
      have hq : sh q = true := by simpa [relevantFileEvent] using hrele
      have hstep : watchStep sh s (.created q) =
          (⟨addPending q s.pendingFiles, true⟩, none) := by
        simp [watchStep, hq]
      obtain ⟨h1, h2, h3⟩ := ih hres ⟨addPending q s.pendingFiles, true⟩
        (addPending_nodup q _ hnd)
      refine ⟨?_, ?_, ?_⟩
      · simp only [watchRun, hstep]
        simpa using h1
      · simp only [watchRun, hstep]
        exact h2
      · intro p
        simp only [watchRun, hstep]
        rw [h3 p, mem_addPending]
        simp only [List.mem_cons, eventPath]
        constructor
        · rintro ((h | rfl) | ⟨e', he', hp⟩)
          · exact Or.inl h
          · exact Or.inr ⟨.created p, Or.inl rfl, rfl⟩
          · exact Or.inr ⟨e', Or.inr he', hp⟩
        · rintro (h | ⟨e', (rfl | he'), hp⟩)
          · exact Or.inl (Or.inl h)
          · simp only [eventPath] at hp
            cases hp
            exact Or.inl (Or.inr rfl)
          · exact Or.inr ⟨e', he', hp⟩
    | modified q =>
      have hq : sh q = true := by simpa [relevantFileEvent] using hrele
      have hstep : watchStep sh s (.modified q) =
          (⟨addPending q s.pendingFiles, true⟩, none) := by
        simp [watchStep, hq]
      obtain ⟨h1, h2, h3⟩ := ih hres ⟨addPending q s.pendingFiles, true⟩
        (addPending_nodup q _ hnd)
      refine ⟨?_, ?_, ?_⟩
      · simp only [watchRun, hstep]
        simpa using h1
      · simp only [watchRun, hstep]
        exact h2
      · intro p
        simp only [watchRun, hstep]
        rw [h3 p, mem_addPending]
        simp only [List.mem_cons, eventPath]
        constructor
        · rintro ((h | rfl) | ⟨e', he', hp⟩)
          · exact Or.inl h
          · exact Or.inr ⟨.modified p, Or.inl rfl, rfl⟩
          · exact Or.inr ⟨e', Or.inr he', hp⟩
        · rintro (h | ⟨e', (rfl | he'), hp⟩)
          · exact Or.inl (Or.inl h)
          · simp only [eventPath] at hp
            cases hp
            exact Or.inl (Or.inr rfl)
          · exact Or.inr ⟨e', he', hp⟩

/-- C9: any finite burst of relevant create/modify events starting from
the idle state, followed by one timer expiry, produces exactly one
ingestion invocation; its argument list names each pending file exactly
once (it is duplicate-free, and a path is in it iff some event of the
burst carried it), and the pending set is left empty. -/
theorem c9_debounce_collapses_bursts (sh : String → Bool)
    (evs : List WatchEvent) (hne : evs ≠ [])
    (hrel : ∀ e ∈ evs, relevantFileEvent sh e = true) :
    (watchRun sh ⟨[], false⟩ (evs ++ [.timerFire])).1 = ⟨[], false⟩ ∧
    ∃ files, (watchRun sh ⟨[], false⟩ (evs ++ [.timerFire])).2 = [files] ∧
      files.Nodup ∧
      ∀ p, p ∈ files ↔ ∃ e ∈ evs, eventPath e = some p := by
  obtain ⟨h1, h2, h3⟩ := watchRun_fileEvents sh evs hrel ⟨[], false⟩ (by simp)
  set s1 := (watchRun sh ⟨[], false⟩ evs).1 with hs1
  have hpend : s1.pendingFiles ≠ [] := by
    obtain ⟨e, he⟩ := List.exists_mem_of_ne_nil evs hne
    have hrele := hrel e he
    obtain ⟨q, hq⟩ : ∃ q, eventPath e = some q := by
      cases e with
      | created q => exact ⟨q, rfl⟩
      | modified q => exact ⟨q, rfl⟩
      | timerFire => simp [relevantFileEvent] at hrele
    have : q ∈ s1.pendingFiles := (h3 q).mpr (Or.inr ⟨e, he, hq⟩)
    exact List.ne_nil_of_mem this
  have htimer : watchRun sh s1 [.timerFire] =
      (⟨[], false⟩, [s1.pendingFiles]) := by
    have hemp : s1.pendingFiles.isEmpty = false := by
      simpa [List.isEmpty_iff] using hpend
    simp [watchRun, watchStep, hemp]
  rw [watchRun_append]
  rw [← hs1, htimer, h1]
  refine ⟨rfl, s1.pendingFiles, rfl, h2, ?_⟩
  intro p
  rw [h3 p]
  simp

/-- C9, witness: three rapid events — two on the same file — collapse to
a single ingestion call naming each file once. -/
theorem c9_debounce_collapses_bursts_witness :
    (watchRun (fun _ => true) ⟨[], false⟩
      ([.modified "memory/a.md", .modified "memory/a.md", .created "memory/b.md"] ++
        [.timerFire])).1 = ⟨[], false⟩ ∧
    ∃ files, (watchRun (fun _ => true) ⟨[], false⟩
        ([.modified "memory/a.md", .modified "memory/a.md", .created "memory/b.md"] ++
          [.timerFire])).2 = [files] ∧
      files.Nodup ∧
      ∀ p, p ∈ files ↔
        ∃ e ∈ ([.modified "memory/a.md", .modified "memory/a.md",
          .created "memory/b.md"] : List WatchEvent), eventPath e = some p :=
  c9_debounce_collapses_bursts (fun _ => true)
    [.modified "memory/a.md", .modified "memory/a.md", .created "memory/b.md"]
    (by decide) (by decide)

/-! ## C10: min-max rescaling pins the weakest keyword candidate at 0 -/

theorem foldl_min_le_init (xs : List ℚ) : ∀ a, xs.foldl min a ≤ a := by
  induction xs with
  | nil => intro a; exact le_refl a
  | cons y ys ih =>
    intro a
    calc (y :: ys).foldl min a = ys.foldl min (min a y) := rfl
    _ ≤ min a y := ih (min a y)
    _ ≤ a := min_le_left a y

theorem foldl_min_le_mem (xs : List ℚ) : ∀ a y, y ∈ xs → xs.foldl min a ≤ y := by
  induction xs with
  | nil => intro a y hy; exact absurd hy (List.not_mem_nil y)
  | cons z zs ih =>
    intro a y hy
    rcases List.mem_cons.mp hy with rfl | hy
    · calc (y :: zs).foldl min a = zs.foldl min (min a y) := rfl
      _ ≤ min a y := foldl_min_le_init zs (min a y)
      _ ≤ y := min_le_right a y
    · exact ih (min a z) y hy

theorem foldl_min_cases (xs : List ℚ) :
    ∀ a, xs.foldl min a = a ∨ xs.foldl min a ∈ xs := by
  induction xs with
  | nil => intro a; exact Or.inl rfl
  | cons y ys ih =>
    intro a
    rcases ih (min a y) with h | h
    · rcases min_choice a y with hm | hm
      · exact Or.inl (by rw [List.foldl_cons, h, hm])
      · refine Or.inr (List.mem_cons.mpr (Or.inl ?_))
        rw [List.foldl_cons, h, hm]
    · exact Or.inr (List.mem_cons.mpr (Or.inr (by rw [List.foldl_cons]; exact h)))

/-- Python `min` of a non-empty list: if `x` is a member and a lower
bound, it is the minimum. -/
theorem listMin_eq_of_forall_le (l : List ℚ) (d x : ℚ)
    (hx : x ∈ l) (hle : ∀ y ∈ l, x ≤ y) : listMin l d = x := by
  cases l with
  | nil => exact absurd hx (List.not_mem_nil x)
  | cons z zs =>
    rw [listMin]
    have h1 : zs.foldl min z ≤ x := by
      rcases List.mem_cons.mp hx with rfl | hx
      · exact foldl_min_le_init zs x
      · exact foldl_min_le_mem zs z x hx
    have h2 : x ≤ zs.foldl min z := by
      rcases foldl_min_cases zs z with h | h
      · rw [h]; exact hle z (List.mem_cons_self _ _)
      · exact hle _ (List.mem_cons.mpr (Or.inr h))
    exact le_antisymm h1 h2

/-- On a map with duplicate-free keys, `getScore` returns a stored
binding's value. -/
theorem getScore_eq_of_mem (m : List (Nat × ℚ)) (k : Nat) (v : ℚ) :
    (m.map Prod.fst).Nodup → (k, v) ∈ m → getScore m k = v := by
  induction m with
  | nil => intro _ hm; exact absurd hm (List.not_mem_nil _)
  | cons p ps ih =>
    intro hnd hm
    rw [List.map_cons, List.nodup_cons] at hnd
    by_cases hpk : p.1 = k
    · have hp : p = (k, v) := by
        rcases List.mem_cons.mp hm with h | h
        · exact h.symm
        · exact absurd (by rw [hpk]; exact List.mem_map.mpr ⟨(k, v), h, rfl⟩) hnd.1
      rw [getScore, List.find?_cons_of_pos _ (by simpa using hpk), hp]
    · rcases List.mem_cons.mp hm with h | h
      · exact absurd (by rw [← h]) hpk
      · have := ih hnd.2 h
        rw [getScore] at this ⊢
        rw [List.find?_cons_of_neg _ (by simpa using hpk)]
        exact this

/-- C10: whenever the FTS result set has two or more rows whose raw
relevances (negated BM25 scores) are not all equal, the row of lowest
relevance is assigned normalized text score exactly 0 by the min-max
rescaling; consequently, in keyword-only fusion it is dropped by every
strictly positive `min_score` filter — no filtered candidate carries its
chunk id. -/
theorem c10_min_relevance_candidate_zero (rows : List (Nat × ℚ)) (cid : Nat)
    (s : ℚ) (hlen : 2 ≤ rows.length) (hnd : (rows.map Prod.fst).Nodup)
    (hmem : (cid, s) ∈ rows) (hmin : ∀ q ∈ rows, -s ≤ -q.2)
    (hne : ∃ p ∈ rows, ∃ q ∈ rows, p.2 ≠ q.2) :
    getScore (textSearch (some rows)) cid = 0 ∧
    ∀ ms : ℚ, 0 < ms →
      ∀ x ∈ fuseFiltered [] (textSearch (some rows)) ms true, x.1 ≠ cid := by
  have hrows : rows.isEmpty = false := by
    cases rows with
    | nil => simp at hlen
    | cons _ _ => rfl
  have hts : textSearch (some rows) =
      (rows.map fun r => (r.1, -r.2)).map fun p =>
        (p.1, (p.2 - listMin ((rows.map fun r => (r.1, -r.2)).map Prod.snd) 0) /
          (if listMax ((rows.map fun r => (r.1, -r.2)).map Prod.snd) 1 ≠
              listMin ((rows.map fun r => (r.1, -r.2)).map Prod.snd) 0 then
            listMax ((rows.map fun r => (r.1, -r.2)).map Prod.snd) 1 -
              listMin ((rows.map fun r => (r.1, -r.2)).map Prod.snd) 0
          else 1)) := by
    rw [textSearch, hrows]
    simp only [Bool.false_eq_true, if_false]
  have hmn : listMin ((rows.map fun r => (r.1, -r.2)).map Prod.snd) 0 = -s := by
    apply listMin_eq_of_forall_le
    · rw [List.map_map]
      exact List.mem_map.mpr ⟨(cid, s), hmem, rfl⟩
    · intro y hy
      rw [List.map_map] at hy
      obtain ⟨q, hq, rfl⟩ := List.mem_map.mp hy
      exact hmin q hq
  have hpair : (cid, (0 : ℚ)) ∈ textSearch (some rows) := by
    rw [hts]
    refine List.mem_map.mpr ⟨(cid, -s), List.mem_map.mpr ⟨(cid, s), hmem, rfl⟩, ?_⟩
    rw [hmn]
    simp
  have hkeys : ((textSearch (some rows)).map Prod.fst).Nodup := by
    rw [hts, List.map_map, List.map_map]
    exact hnd
  have hzero : getScore (textSearch (some rows)) cid = 0 :=
    getScore_eq_of_mem _ _ _ hkeys hpair
  refine ⟨hzero, ?_⟩
  intro ms hms x hx hxc
  rw [fuseFiltered, List.mem_filter] at hx
  obtain ⟨hcomb, hsc⟩ := hx
  rw [fuseCombined, List.mem_map] at hcomb
  obtain ⟨c, _, hce⟩ := hcomb
  simp only at hce
  have hx1 : x.1 = c := by rw [← hce]
  have hx2 : x.2.1 = getScore (textSearch (some rows)) c := by
    rw [← hce]
    simp
  rw [hxc] at hx1
  rw [hx2, ← hx1, hzero] at hsc
  simp only [decide_eq_true_eq] at hsc
  exact absurd (lt_of_lt_of_le hms hsc) (lt_irrefl 0)

/-- C10, witness: rows with relevances 5 and 3 — the id-2 row has the
lowest relevance, gets normalized score 0, and never clears a positive
threshold in keyword-only search. -/
theorem c10_min_relevance_candidate_zero_witness :
    getScore (textSearch (some [(1, -5), (2, -3)])) 2 = 0 ∧
    ∀ ms : ℚ, 0 < ms →
      ∀ x ∈ fuseFiltered [] (textSearch (some [(1, -5), (2, -3)])) ms true,
        x.1 ≠ 2 :=
  c10_min_relevance_candidate_zero [(1, -5), (2, -3)] 2 (-3)
    (by decide) (by decide) (by simp)
    (by intro q hq; rcases List.mem_cons.mp hq with rfl | hq
        · norm_num
        · rcases List.mem_cons.mp hq with rfl | hq
          · norm_num
          · exact absurd hq (List.not_mem_nil q))
    ⟨(1, -5), by simp, (2, -3), by simp, by norm_num⟩

/-! ## C3: the hybrid search contract -/

theorem insertByDesc_perm {α : Type} (key : α → ℚ) (x : α) (l : List α) :
    (insertByDesc key x l).Perm (x :: l) := by
  induction l with
  | nil => exact List.Perm.refl _
  | cons y ys ih =>
    rw [insertByDesc]
    split
    · exact (ih.cons y).trans (List.Perm.swap x y ys)
    · exact List.Perm.refl _

theorem sortByDesc_perm {α : Type} (key : α → ℚ) (l : List α) :
    (sortByDesc key l).Perm l := by
  induction l with
  | nil => exact List.Perm.refl _
  | cons x xs ih =>
    rw [sortByDesc]
    exact (insertByDesc_perm key x (sortByDesc key xs)).trans (ih.cons x)

theorem insertByDesc_pairwise {α : Type} (key : α → ℚ) (x : α) (l : List α)
    (h : l.Pairwise (fun a b => key b ≤ key a)) :
    (insertByDesc key x l).Pairwise (fun a b => key b ≤ key a) := by
  induction l with
  | nil => simp [insertByDesc]
  | cons y ys ih =>
    rw [List.pairwise_cons] at h
    rw [insertByDesc]
    split
    · next hlt =>
      refine List.pairwise_cons.mpr ⟨?_, ih h.2⟩
      intro z hz
      have hz' : z ∈ x :: ys := (insertByDesc_perm key x ys).mem_iff.mp hz
      rcases List.mem_cons.mp hz' with rfl | hz'
      · exact le_of_lt hlt
      · exact h.1 z hz'
    · next hge =>
      push_neg at hge
      refine List.pairwise_cons.mpr ⟨?_, List.pairwise_cons.mpr h⟩
      intro z hz
      rcases List.mem_cons.mp hz with rfl | hz'
      · exact hge
      · exact le_trans (h.1 z hz') hge

theorem sortByDesc_pairwise {α : Type} (key : α → ℚ) (l : List α) :
    (sortByDesc key l).Pairwise (fun a b => key b ≤ key a) := by
  induction l with
  | nil => simp [sortByDesc]
  | cons x xs ih => exact insertByDesc_pairwise key x _ ih

theorem pairwise_filterMap_of_pairwise {α β : Type} (f : α → Option β)
    (R : α → α → Prop) (S : β → β → Prop)
    (hf : ∀ a b, R a b → ∀ c, f a = some c → ∀ d, f b = some d → S c d) :
    ∀ l : List α, l.Pairwise R → (l.filterMap f).Pairwise S := by
  intro l
  induction l with
  | nil => intro _; simp
  | cons a l ih =>
    intro h
    rw [List.pairwise_cons] at h
    rw [List.filterMap_cons]
    cases hfa : f a with
    | none => exact ih h.2
    | some c =>
      refine List.pairwise_cons.mpr ⟨?_, ih h.2⟩
      intro d hd
      obtain ⟨b, hb, hfb⟩ := List.mem_filterMap.mp hd
      exact hf a b (h.1 b hb) c hfa d hfb

theorem fuseResults_pairwise (getChunk : Nat → Option ChunkInfo)
    (vS tS : List (Nat × ℚ)) (limit : Nat) (ms : ℚ) (ko : Bool) :
    (fuseResults getChunk vS tS limit ms ko).Pairwise
      (fun a b => b.score ≤ a.score) := by
  rw [fuseResults]
  apply pairwise_filterMap_of_pairwise _
    (fun (a b : Nat × ℚ × ℚ × ℚ) => b.2.1 ≤ a.2.1)
  · intro a b hab c hc d hd
    cases hga : getChunk a.1 with
    | none => rw [hga] at hc; exact absurd hc (by simp)
    | some rowa =>
      cases hgb : getChunk b.1 with
      | none => rw [hgb] at hd; exact absurd hd (by simp)
      | some rowb =>
        rw [hga] at hc
        rw [hgb] at hd
        simp only [Option.some.injEq] at hc hd
        rw [← hc, ← hd]
        exact hab
  · exact ((sortByDesc_pairwise (fun (x : Nat × ℚ × ℚ × ℚ) => x.2.1) _).sublist
      (List.take_sublist _ _))

theorem fuseResults_length_le (getChunk : Nat → Option ChunkInfo)
    (vS tS : List (Nat × ℚ)) (limit : Nat) (ms : ℚ) (ko : Bool) :
    (fuseResults getChunk vS tS limit ms ko).length ≤ limit := by
  rw [fuseResults]
  calc (List.filterMap _ _).length
      ≤ ((sortByDesc (fun x => x.2.1) (fuseFiltered vS tS ms ko)).take limit).length :=
        List.length_filterMap_le _ _
    _ ≤ limit := by rw [List.length_take]; exact min_le_left _ _

theorem fuseResults_mem (getChunk : Nat → Option ChunkInfo)
    (vS tS : List (Nat × ℚ)) (limit : Nat) (ms : ℚ) (ko : Bool)
    (r : SearchResult) (hr : r ∈ fuseResults getChunk vS tS limit ms ko) :
    ms ≤ r.score ∧
    r.score = (if ko then r.textScore
      else VECTOR_WEIGHT * r.vectorScore + TEXT_WEIGHT * r.textScore) ∧
    ∃ cid ∈ allChunkIds vS tS,
      getChunk cid = some ⟨r.filePath, r.lineStart, r.lineEnd, r.content⟩ ∧
      r.vectorScore = getScore vS cid ∧ r.textScore = getScore tS cid := by
  rw [fuseResults] at hr
  obtain ⟨x, hx, hfx⟩ := List.mem_filterMap.mp hr
  have hx' : x ∈ fuseFiltered vS tS ms ko :=
    (sortByDesc_perm (fun y => y.2.1) _).mem_iff.mp
      ((List.take_sublist _ _).subset hx)
  rw [fuseFiltered, List.mem_filter] at hx'
  obtain ⟨hcomb, hsc⟩ := hx'
  rw [fuseCombined, List.mem_map] at hcomb
  obtain ⟨cid, hcid, hce⟩ := hcomb
  simp only at hce
  cases hgc : getChunk x.1 with
  | none => rw [hgc] at hfx; exact absurd hfx (by simp)
  | some row =>
    rw [hgc] at hfx
    simp only [Option.some.injEq] at hfx
    have hx1 : x.1 = cid := by rw [← hce]
    have hxf : x.2.1 = (if ko then getScore tS cid
        else VECTOR_WEIGHT * getScore vS cid + TEXT_WEIGHT * getScore tS cid) := by
      rw [← hce]
    have hxv : x.2.2.1 = getScore vS cid := by rw [← hce]
    have hxt : x.2.2.2 = getScore tS cid := by rw [← hce]
    have hrs : r.score = x.2.1 := by rw [← hfx]
    have hrv : r.vectorScore = x.2.2.1 := by rw [← hfx]
    have hrt : r.textScore = x.2.2.2 := by rw [← hfx]
    refine ⟨?_, ?_, cid, hcid, ?_, ?_, ?_⟩
    · rw [hrs]
      simpa using hsc
    · rw [hrs, hrv, hrt, hxf, hxv, hxt]
    · rw [hx1] at hgc
      rw [hgc, ← hfx]
    · rw [hrv, hxv]
    · rw [hrt, hxt]

theorem mem_allChunkIds (vS tS : List (Nat × ℚ)) (cid : Nat) :
    cid ∈ allChunkIds vS tS ↔
      (cid ∈ vS.map Prod.fst ∨ cid ∈ tS.map Prod.fst) := by
  rw [allChunkIds, List.mem_dedup, List.mem_append]

/-- C3: whenever the CLI `hybrid_search` returns a result list, that list
is sorted by non-increasing fused score, holds at most `limit` entries,
every entry clears `min_score`, every entry's fused score is
`0.7 × vector_score + 0.3 × text_score` (the text score alone under
`keyword_only`), each component score is the one its path assigned (0 if
the path did not surface the chunk), and the candidate pool is exactly
the set union of the two paths' candidates. -/
theorem c3_hybrid_search_contract (getChunk : Nat → Option ChunkInfo)
    (embedQuery : Except String (List ℚ))
    (vsf : List ℚ → List (Nat × ℚ)) (ftsRows : Option (List (Nat × ℚ)))
    (limit : Nat) (minScore : ℚ) (keywordOnly : Bool)
    (res : List SearchResult)
    (hok : hybridSearch getChunk embedQuery vsf ftsRows limit minScore
      keywordOnly = .ok res) :
    res.Pairwise (fun a b => b.score ≤ a.score) ∧
    res.length ≤ limit ∧
    ∃ vScores, ((keywordOnly = true ∧ vScores = []) ∨
        (keywordOnly = false ∧ ∃ qe, embedQuery = .ok qe ∧ vScores = vsf qe)) ∧
      (∀ cid, cid ∈ allChunkIds vScores (textSearch ftsRows) ↔
        (cid ∈ vScores.map Prod.fst ∨
          cid ∈ (textSearch ftsRows).map Prod.fst)) ∧
      ∀ r ∈ res, minScore ≤ r.score ∧
        r.score = (if keywordOnly then r.textScore
          else VECTOR_WEIGHT * r.vectorScore + TEXT_WEIGHT * r.textScore) ∧
        ∃ cid ∈ allChunkIds vScores (textSearch ftsRows),
          getChunk cid = some ⟨r.filePath, r.lineStart, r.lineEnd, r.content⟩ ∧
          r.vectorScore = getScore vScores cid ∧
          r.textScore = getScore (textSearch ftsRows) cid := by
  have hcase : ∃ vScores, ((keywordOnly = true ∧ vScores = []) ∨
      (keywordOnly = false ∧ ∃ qe, embedQuery = .ok qe ∧ vScores = vsf qe)) ∧
      res = fuseResults getChunk vScores (textSearch ftsRows) limit minScore
        keywordOnly := by
    cases keywordOnly with
    | true =>
      have h : hybridSearch getChunk embedQuery vsf ftsRows limit minScore true =
          .ok (fuseResults getChunk [] (textSearch ftsRows) limit minScore true) :=
        rfl
      rw [h] at hok
      exact ⟨[], Or.inl ⟨rfl, rfl⟩, (Except.ok.inj hok).symm⟩
    | false =>
      cases embedQuery with
      | error e =>
        have h : hybridSearch getChunk (.error e) vsf ftsRows limit minScore
            false = .error e := rfl
        rw [h] at hok
        exact absurd hok (by simp)
      | ok qe =>
        have h : hybridSearch getChunk (.ok qe) vsf ftsRows limit minScore
            false = .ok (fuseResults getChunk (vsf qe) (textSearch ftsRows)
              limit minScore false) := rfl
        rw [h] at hok
        exact ⟨vsf qe, Or.inr ⟨rfl, qe, rfl, rfl⟩, (Except.ok.inj hok).symm⟩
  obtain ⟨vScores, hvs, hres⟩ := hcase
  subst hres
  refine ⟨fuseResults_pairwise _ _ _ _ _ _, fuseResults_length_le _ _ _ _ _ _,
    vScores, hvs, fun cid => mem_allChunkIds _ _ cid, ?_⟩
  intro r hr
  exact fuseResults_mem getChunk vScores (textSearch ftsRows) limit minScore
    keywordOnly r hr

/-- C3, witness: a keyword-only search over two FTS rows returns the
single candidate that clears the threshold, with all contract clauses
holding at this concrete input. -/
theorem c3_hybrid_search_contract_witness :
    ([(⟨"f", 1, 1, "c", 1, 0, 1⟩ : SearchResult)]).Pairwise
      (fun a b => b.score ≤ a.score) ∧
    ([(⟨"f", 1, 1, "c", 1, 0, 1⟩ : SearchResult)]).length ≤ 6 ∧
    ∃ vScores, ((true = true ∧ vScores = ([] : List (Nat × ℚ))) ∨
        (true = false ∧ ∃ qe, (Except.error "x" : Except String (List ℚ)) = .ok qe ∧
          vScores = (fun _ => ([] : List (Nat × ℚ))) qe)) ∧
      (∀ cid, cid ∈ allChunkIds vScores (textSearch (some [(1, -5), (2, -3)])) ↔
        (cid ∈ vScores.map Prod.fst ∨
          cid ∈ (textSearch (some [(1, -5), (2, -3)])).map Prod.fst)) ∧
      ∀ r ∈ [(⟨"f", 1, 1, "c", 1, 0, 1⟩ : SearchResult)], (1/4 : ℚ) ≤ r.score ∧
        r.score = (if true then r.textScore
          else VECTOR_WEIGHT * r.vectorScore + TEXT_WEIGHT * r.textScore) ∧
        ∃ cid ∈ allChunkIds vScores (textSearch (some [(1, -5), (2, -3)])),
          (fun _ => some (⟨"f", 1, 1, "c"⟩ : ChunkInfo)) cid =
            some ⟨r.filePath, r.lineStart, r.lineEnd, r.content⟩ ∧
          r.vectorScore = getScore vScores cid ∧
          r.textScore = getScore (textSearch (some [(1, -5), (2, -3)])) cid :=
  c3_hybrid_search_contract (fun _ => some ⟨"f", 1, 1, "c"⟩) (.error "x")
    (fun _ => []) (some [(1, -5), (2, -3)]) 6 (1/4) true
    [⟨"f", 1, 1, "c", 1, 0, 1⟩] (by
      have h0 : textSearch (some [(1, -5), (2, -3)]) = [(1, 1), (2, 0)] := by
        norm_num [textSearch, listMax, listMin]
      have h2 : fuseResults (fun _ => some (⟨"f", 1, 1, "c"⟩ : ChunkInfo)) []
          [(1, 1), (2, 0)] 6 (1/4) true = [⟨"f", 1, 1, "c", 1, 0, 1⟩] := by
        norm_num [fuseResults, fuseFiltered, fuseCombined, allChunkIds,
          getScore, sortByDesc, insertByDesc, List.dedup, List.find?,
          List.filter, List.filterMap, List.take]
      show Except.ok (fuseResults (fun _ => some ⟨"f", 1, 1, "c"⟩) []
        (textSearch (some [(1, -5), (2, -3)])) 6 (1/4) true) = _
      rw [h0, h2])

/-! ## C7: cosine similarity bounds -/

theorem list_sum_eq_range (l : List ℝ) :
    l.sum = ∑ i ∈ Finset.range l.length, l.getD i 0 := by
  induction l with
  | nil => simp
  | cons x xs ih =>
    rw [List.sum_cons, List.length_cons, Finset.sum_range_succ', ih]
    simp only [List.getD_cons_succ, List.getD_cons_zero]
    exact add_comm _ _

theorem dotList_eq_range (a b : List ℝ) :
    dotList a b = ∑ i ∈ Finset.range (a.zip b).length,
      a.getD i 0 * b.getD i 0 := by
  rw [dotList, list_sum_eq_range]
  have hlen : ((a.zip b).map fun p => p.1 * p.2).length = (a.zip b).length := by
    simp
  rw [hlen]
  apply Finset.sum_congr rfl
  intro i hi
  rw [Finset.mem_range] at hi
  have hia : i < a.length := by
    rw [List.length_zip] at hi; omega
  have hib : i < b.length := by
    rw [List.length_zip] at hi; omega
  rw [List.getD_eq_getElem _ _ (by simpa using hi), List.getElem_map,
    List.getElem_zip, List.getD_eq_getElem _ _ hia, List.getD_eq_getElem _ _ hib]

theorem sumSq_eq_range (a : List ℝ) :
    sumSq a = ∑ i ∈ Finset.range a.length, a.getD i 0 ^ 2 := by
  rw [sumSq, list_sum_eq_range]
  have hlen : (a.map fun x => x * x).length = a.length := by simp
  rw [hlen]
  apply Finset.sum_congr rfl
  intro i hi
  rw [Finset.mem_range] at hi
  rw [List.getD_eq_getElem _ _ (by simpa using hi), List.getElem_map,
    List.getD_eq_getElem _ _ hi, sq]

theorem sumSq_nonneg (a : List ℝ) : 0 ≤ sumSq a := by
  rw [sumSq_eq_range]
  exact Finset.sum_nonneg fun i _ => sq_nonneg _

theorem sumSq_pos_of_nonzero (a : List ℝ) :
    (∃ x ∈ a, x ≠ 0) → 0 < sumSq a := by
  induction a with
  | nil =>
    rintro ⟨x, hx, _⟩
    exact absurd hx (List.not_mem_nil x)
  | cons y ys ih =>
    rintro ⟨x, hx, hx0⟩
    have hyy : (0:ℝ) ≤ y * y := mul_self_nonneg y
    have hys : 0 ≤ sumSq ys := sumSq_nonneg ys
    have hsum : sumSq (y :: ys) = y * y + sumSq ys := by
      simp [sumSq]
    rcases List.mem_cons.mp hx with rfl | hx'
    · have hpos : 0 < x * x := mul_self_pos.mpr hx0
      rw [hsum]
      linarith
    · have := ih ⟨x, hx', hx0⟩
      rw [hsum]
      linarith

theorem dotList_self (a : List ℝ) : dotList a a = sumSq a := by
  induction a with
  | nil => rfl
  | cons x xs ih =>
    have h1 : dotList (x :: xs) (x :: xs) = x * x + dotList xs xs := by
      simp [dotList, List.zip_cons_cons]
    rw [h1, ih]
    simp [sumSq]

theorem sum_range_sq_le_sumSq (a : List ℝ) (n : Nat) (hn : n ≤ a.length) :
    ∑ i ∈ Finset.range n, a.getD i 0 ^ 2 ≤ sumSq a := by
  rw [sumSq_eq_range]
  exact Finset.sum_le_sum_of_subset_of_nonneg
    (Finset.range_subset.mpr hn) fun i _ _ => sq_nonneg _

/-- Cauchy-Schwarz for the zip-truncated dot product of two real lists. -/
theorem abs_dotList_le (a b : List ℝ) :
    |dotList a b| ≤ Real.sqrt (sumSq a) * Real.sqrt (sumSq b) := by
  have hna : (a.zip b).length ≤ a.length := by
    rw [List.length_zip]; omega
  have hnb : (a.zip b).length ≤ b.length := by
    rw [List.length_zip]; omega
  have hA : ∑ i ∈ Finset.range (a.zip b).length, a.getD i 0 ^ 2 ≤ sumSq a :=
    sum_range_sq_le_sumSq a _ hna
  have hB : ∑ i ∈ Finset.range (a.zip b).length, b.getD i 0 ^ 2 ≤ sumSq b :=
    sum_range_sq_le_sumSq b _ hnb
  have hAnn : 0 ≤ ∑ i ∈ Finset.range (a.zip b).length, a.getD i 0 ^ 2 :=
    Finset.sum_nonneg fun i _ => sq_nonneg _
  have hBnn : 0 ≤ ∑ i ∈ Finset.range (a.zip b).length, b.getD i 0 ^ 2 :=
    Finset.sum_nonneg fun i _ => sq_nonneg _
  have hle : Real.sqrt (∑ i ∈ Finset.range (a.zip b).length, a.getD i 0 ^ 2) *
      Real.sqrt (∑ i ∈ Finset.range (a.zip b).length, b.getD i 0 ^ 2) ≤
      Real.sqrt (sumSq a) * Real.sqrt (sumSq b) :=
    mul_le_mul (Real.sqrt_le_sqrt hA) (Real.sqrt_le_sqrt hB)
      (Real.sqrt_nonneg _) (Real.sqrt_nonneg _)
  rw [abs_le]
  constructor
  · have hcs := Real.sum_mul_le_sqrt_mul_sqrt (Finset.range (a.zip b).length)
      (fun i => -(a.getD i 0)) (fun i => b.getD i 0)
    simp only [neg_mul, Finset.sum_neg_distrib, neg_sq] at hcs
    rw [dotList_eq_range]
    linarith
  · have hcs := Real.sum_mul_le_sqrt_mul_sqrt (Finset.range (a.zip b).length)
      (fun i => a.getD i 0) (fun i => b.getD i 0)
    rw [dotList_eq_range]
    linarith

/-- C7: for non-zero vectors of equal length, cosine similarity lies in
`[-1, 1]`; the self-similarity of a non-zero vector is exactly 1; and
whenever either argument has zero norm the function returns 0. -/
theorem c7_cosine_similarity_bounds :
    (∀ a b : List ℝ, a.length = b.length → (∃ x ∈ a, x ≠ 0) →
      (∃ x ∈ b, x ≠ 0) →
      -1 ≤ cosineSimilarity a b ∧ cosineSimilarity a b ≤ 1) ∧
    (∀ a : List ℝ, (∃ x ∈ a, x ≠ 0) → cosineSimilarity a a = 1) ∧
    (∀ a b : List ℝ, sumSq a = 0 ∨ sumSq b = 0 → cosineSimilarity a b = 0) := by
  have hcond : ∀ a b : List ℝ, 0 < sumSq a → 0 < sumSq b →
      ¬ (Real.sqrt (sumSq a) = 0 ∨ Real.sqrt (sumSq b) = 0) := by
    intro a b ha hb h
    rcases h with h | h
    · rw [Real.sqrt_eq_zero'] at h
      linarith
    · rw [Real.sqrt_eq_zero'] at h
      linarith
  refine ⟨?_, ?_, ?_⟩
  · intro a b _ ha hb
    have hA := sumSq_pos_of_nonzero a ha
    have hB := sumSq_pos_of_nonzero b hb
    have hD : 0 < Real.sqrt (sumSq a) * Real.sqrt (sumSq b) :=
      mul_pos (Real.sqrt_pos.mpr hA) (Real.sqrt_pos.mpr hB)
    have hcos : cosineSimilarity a b =
        dotList a b / (Real.sqrt (sumSq a) * Real.sqrt (sumSq b)) := by
      rw [cosineSimilarity]
      exact if_neg (hcond a b hA hB)
    have habs : |cosineSimilarity a b| ≤ 1 := by
      rw [hcos, abs_div, abs_of_pos hD]
      exact (div_le_one hD).mpr (abs_dotList_le a b)
    exact abs_le.mp habs
  · intro a ha
    have hA := sumSq_pos_of_nonzero a ha
    have hcos : cosineSimilarity a a =
        dotList a a / (Real.sqrt (sumSq a) * Real.sqrt (sumSq a)) := by
      rw [cosineSimilarity]
      exact if_neg (hcond a a hA hA)
    rw [hcos, dotList_self, Real.mul_self_sqrt (sumSq_nonneg a)]
    exact div_self (ne_of_gt hA)
  · intro a b h
    rw [cosineSimilarity]
    apply if_pos
    rcases h with h | h
    · exact Or.inl (by rw [h, Real.sqrt_zero])
    · exact Or.inr (by rw [h, Real.sqrt_zero])

/-- C7, witness: the bounds at `[1]` and `[1]`, self-similarity of `[1]`,
and the zero-norm case at `[0]`. -/
theorem c7_cosine_similarity_bounds_witness :
    (-1 ≤ cosineSimilarity [1] [1] ∧ cosineSimilarity [1] [1] ≤ 1) ∧
    cosineSimilarity [1] [1] = 1 ∧
    cosineSimilarity [0] [1] = 0 :=
  ⟨c7_cosine_similarity_bounds.1 [1] [1] rfl ⟨1, by simp, one_ne_zero⟩
      ⟨1, by simp, one_ne_zero⟩,
    c7_cosine_similarity_bounds.2.1 [1] ⟨1, by simp, one_ne_zero⟩,
    c7_cosine_similarity_bounds.2.2 [0] [1] (Or.inl (by simp [sumSq]))⟩

end Clawd
